import Mathlib

/-!
# Formal model of the InvokeAI `ModelCache`
(`invokeai/backend/model_manager/load/model_cache/model_cache_default.py`)

A shallow embedding of the model RAM cache: the placement ledger
(`_cached_models`, a Python `dict` embedded as an insertion-ordered
association list), the recency stack (`_cache_stack`, a Python `list`),
and the public operations `put` / `get` / `exists` / `make_room` /
`offload_unlocked_models` / `move_model_to_device`.

Python exceptions are embedded as `Except`: every operation returns the
post-state paired with an `Except` result, so that mutations performed
before a `raise` persist, exactly as in Python.
-/

namespace ModelCacheSpec

/-- Size of a gig in bytes (`GIG = 1073741824` in the source). -/
def GIG : Nat := 1073741824

/-- A `torch.device`: a device type string (`"cpu"`, `"cuda"`, `"mps"`, ...)
plus an optional index (`"cuda:0"` has index 0).  `torch.device(d).type`
projects out `dtype`. -/
structure Device where
  dtype : String
  dindex : Option Nat
deriving DecidableEq, Repr

/-- An opaque model handle (`AnyModel`).  The cache only observes:
whether the handle has a `to` method (`hasattr(model, "to")`), whether it
is a `torch.nn.Module` (and hence has a `state_dict`), and its byte
footprint as reported by the size estimator. -/
structure ModelHandle where
  hasTo : Bool
  isNnModule : Bool
  sizeBytes : Nat
deriving DecidableEq, Repr

/-- Modelled from the spec: `calc_model_size_by_data` (the *SizeEstimator*,
from `model_util.py`, which is not part of the cache module) "computes the
byte footprint of a model handle"; it is a pure function of the handle. -/
def calc_model_size_by_data (m : ModelHandle) : Nat := m.sizeBytes

/-- Modelled from the spec: `CacheRecord` from `model_cache_base.py` (not in
the cache module itself): the per-key *PlacementLedger* record, holding the
key, the model handle, the device currently holding the live weights (the
entry's pool), an optional retained state-dict snapshot, the byte size
computed once at insertion, a `loaded` flag (resident in the execution
pool), and the pin count `locks` (the *PinTable* count; `_locks` in the
source, incremented by `ModelLocker`). -/
structure CacheRecord where
  key : String
  model : ModelHandle
  device : Device
  state_dict : Option Unit
  size : Nat
  loaded : Bool
  locks : Nat
deriving DecidableEq, Repr

/-- `CacheRecord.locked`: pin count > 0 (spec 4.2: `is_locked(key) -> bool`:
count > 0). -/
def CacheRecord.locked (r : CacheRecord) : Bool := r.locks > 0

/-- Modelled from the spec: `CacheStats` from `model_cache_base.py`:
"monotonically increasing hit/miss counters, a high-watermark of aggregate
bulk-pool bytes, per-key size table", plus the fields written by this file
(`cache_size`, `in_cache`, `cleared`). -/
structure CacheStats where
  hits : Nat
  misses : Nat
  high_watermark : Nat
  in_cache : Nat
  cleared : Nat
  cache_size : Int
  loaded_model_sizes : List (String × Nat)
deriving DecidableEq, Repr

/-- The Python exceptions that escape the cache operations. -/
inductive CacheErr where
  /-- `IndexError` raised by `get` on a missing key (the spec's
  `NotFoundError`). -/
  | indexError
  /-- `KeyError` from a `dict` lookup/`del` on a missing key. -/
  | keyError
  /-- `ValueError` from `list.remove` on a missing element. -/
  | valueError
  /-- Any exception raised by the device transfer inside
  `move_model_to_device` (the spec's `TransferError`). -/
  | transferError
deriving DecidableEq, Repr

/-- The ledger type: a Python `dict[str, CacheRecord]`, embedded as an
insertion-ordered association list. -/
abbrev Ledger := List (String × CacheRecord)

/-- `d[k]` lookup on the ledger (first occurrence; a Python dict has unique
keys, so this is exact). -/
def dictGet : Ledger → String → Option CacheRecord
  | [], _ => none
  | (k', v) :: rest, k => if k' = k then some v else dictGet rest k

/-- `del d[k]`: remove the first binding of `k`. -/
def dictErase : Ledger → String → Ledger
  | [], _ => []
  | (k', v) :: rest, k => if k' = k then rest else (k', v) :: dictErase rest k

/-- `d[k] = v`: update in place (keeping dict order) when present, append
at the end when absent — Python dict insertion-order semantics. -/
def dictSet : Ledger → String → CacheRecord → Ledger
  | [], k, v => [(k, v)]
  | (k', v') :: rest, k, v =>
      if k' = k then (k, v) :: rest else (k', v') :: dictSet rest k v

/-- Mutate the record stored under `k` (attribute assignment on the aliased
record object, e.g. `cache_entry.device = target`).  A no-op when `k` is
absent: mutating a record that is no longer in the dict does not change the
dict. -/
def dictModify : Ledger → String → (CacheRecord → CacheRecord) → Ledger
  | [], _, _ => []
  | (k', v) :: rest, k, f =>
      if k' = k then (k', f v) :: rest else (k', v) :: dictModify rest k f

/-- The keys of the ledger, in insertion order. -/
def dictKeys (d : Ledger) : List String := d.map Prod.fst

/-- Sum of the sizes of all ledger records (`cache_size` body). -/
def sumSizes (d : Ledger) : Nat := (d.map (fun p => p.2.size)).sum

/-- The whole cache state: configuration plus the ledger
(`_cached_models`), the recency stack (`_cache_stack`) and the optional
stats object (`_stats`). -/
structure CacheState where
  maxCacheSize : ℚ
  maxVramCacheSize : ℚ
  storageDevice : Device
  executionDevice : Device
  cachedModels : Ledger
  cacheStack : List String
  stats : Option CacheStats
deriving DecidableEq, Repr

/-- `ModelCache.cache_size`: total size of the models currently cached. -/
def cache_size (st : CacheState) : Nat := sumSizes st.cachedModels

/-- `ModelCache._make_cache_key`: composite key `"base:submodel"` when a
submodel qualifier is given. -/
def make_cache_key (modelKey : String) (submodelType : Option String) : String :=
  match submodelType with
  | some s => modelKey ++ ":" ++ s
  | none => modelKey

/-- `ModelCache.exists`: true iff the composite key is in the ledger. -/
def existsInCache (st : CacheState) (key : String) (submodelType : Option String) : Bool :=
  (dictGet st.cachedModels (make_cache_key key submodelType)).isSome

/-- `ModelCache._delete_cache_entry`:
`self._cache_stack.remove(cache_entry.key)` followed by
`del self._cached_models[cache_entry.key]`.  `list.remove` raises
`ValueError` when the element is absent (nothing mutated yet);
`del` raises `KeyError` when the key is absent (the stack is already
mutated at that point). -/
def delete_cache_entry (d : Ledger) (stack : List String) (entry : CacheRecord) :
    Ledger × List String × Except CacheErr Unit :=
  if entry.key ∈ stack then
    let stack' := stack.erase entry.key
    if (dictGet d entry.key).isSome then
      (dictErase d entry.key, stack', .ok ())
    else
      (d, stack', .error .keyError)
  else
    (d, stack, .error .valueError)

/-- The eviction loop of `ModelCache.make_room` (lines 378–398 of the
source).  Loop state: current position `pos` in the stack, the running
`current_size` (a Python `int`, hence `ℤ`), the running `models_cleared`
count, plus the mutated ledger and stack.  The loop runs while
`current_size + bytes_needed > maximum_size and pos < len(stack)`; a
locked entry is skipped (`pos += 1`); an unlocked entry is deleted from
ledger and stack (its size subtracted, `models_cleared` incremented), the
position staying put because the deletion shifts the remainder left. -/
def makeRoomGo (maximumSize : ℚ) (bytesNeeded : Nat) (d : Ledger)
    (stack : List String) (pos : Nat) (cur : Int) (cleared : Nat) :
    Ledger × List String × Nat × Except CacheErr Unit :=
  if h : ((cur : ℚ) + (bytesNeeded : ℚ) > maximumSize) ∧ pos < stack.length then
    let modelKey := stack.get ⟨pos, h.2⟩
    match dictGet d modelKey with
    | none => (d, stack, cleared, .error .keyError)
    | some entry =>
      if entry.locked then
        makeRoomGo maximumSize bytesNeeded d stack (pos + 1) cur cleared
      else
        match hdel : delete_cache_entry d stack entry with
        | (d', s', .ok _) =>
            makeRoomGo maximumSize bytesNeeded d' s' pos (cur - (entry.size : Int))
              (cleared + 1)
        | (d', s', .error e) => (d', s', cleared + 1, .error e)
  else
    (d, stack, cleared, .ok ())
termination_by stack.length - pos
decreasing_by
  · omega
  · have hlen : s'.length + 1 = stack.length := by
      unfold delete_cache_entry at hdel
      split at hdel
      · split at hdel
        · simp only [Prod.mk.injEq] at hdel
          obtain ⟨-, hs, -⟩ := hdel
          subst hs
          rename_i hmem _
          rw [List.length_erase_of_mem hmem]
          have hpos := List.length_pos_of_mem hmem
          omega
        · simp at hdel
      · simp at hdel
    omega

/-- `self.stats.cleared = models_cleared` when a stats object is attached. -/
def setCleared (st : CacheState) (cleared : Nat) : CacheState :=
  match st.stats with
  | none => st
  | some s => { st with stats := some { s with cleared := cleared } }

/-- `ModelCache.make_room(size)`: evict unlocked entries, oldest (stack
head) first, until `current_size + bytes_needed <= max_cache_size * GIG`
or the stack is exhausted of unlocked entries.  When at least one model
was cleared and stats are attached, `stats.cleared` is set to the count.
(The `gc.collect()` / `empty_cache()` calls have no cache-state effect.) -/
def make_room (st : CacheState) (size : Nat) : CacheState × Except CacheErr Unit :=
  let maximumSize : ℚ := st.maxCacheSize * (GIG : ℚ)
  let currentSize : Int := (cache_size st : Int)
  match makeRoomGo maximumSize size st.cachedModels st.cacheStack 0 currentSize 0 with
  | (d', s', cleared, r) =>
    let st' := { st with cachedModels := d', cacheStack := s' }
    match r with
    | .error e => (st', .error e)
    | .ok _ => (if cleared > 0 then setCleared st' cleared else st', .ok ())

/-- `ModelCache.put(key, model, submodel_type)`: no-op when the composite
key is present; otherwise compute the size, `make_room(size)`, then insert
a fresh `CacheRecord` (device = the storage device, `state_dict` captured
when the model is an `nn.Module`, `loaded = False`, pin count 0) and
append the key to the recency stack. -/
def put (st : CacheState) (key : String) (model : ModelHandle)
    (submodelType : Option String) : CacheState × Except CacheErr Unit :=
  let key' := make_cache_key key submodelType
  if (dictGet st.cachedModels key').isSome then
    (st, .ok ())
  else
    let size := calc_model_size_by_data model
    match make_room st size with
    | (st', .error e) => (st', .error e)
    | (st', .ok _) =>
      let sd : Option Unit := if model.isNnModule then some () else none
      let entry : CacheRecord :=
        { key := key', model := model, device := st'.storageDevice,
          state_dict := sd, size := size, loaded := false, locks := 0 }
      ({ st' with cachedModels := dictSet st'.cachedModels key' entry,
                  cacheStack := st'.cacheStack ++ [key'] }, .ok ())

/-- Python `int(q)`: truncation toward zero. -/
def pyInt (q : ℚ) : Int := if q < 0 then ⌈q⌉ else ⌊q⌋

/-- `stats.misses += 1` when stats are attached. -/
def bumpMisses (st : CacheState) : CacheState :=
  match st.stats with
  | none => st
  | some s => { st with stats := some { s with misses := s.misses + 1 } }

/-- `stats.hits += 1` when stats are attached. -/
def bumpHits (st : CacheState) : CacheState :=
  match st.stats with
  | none => st
  | some s => { st with stats := some { s with hits := s.hits + 1 } }

/-- `max(d.get(name, 0), v)` written into the per-key size table. -/
def bumpLoadedSize (l : List (String × Nat)) (name : String) (v : Nat) :
    List (String × Nat) :=
  let old := match l.find? (fun p => p.1 = name) with
    | some p => p.2
    | none => 0
  let nv := max old v
  if (l.find? (fun p => p.1 = name)).isSome then
    l.map (fun p => if p.1 = name then (p.1, nv) else p)
  else
    l ++ [(name, nv)]

/-- The "more stats" block of `get` on a hit: `stats_name = stats_name or
key` (an empty string is falsy), then `cache_size`, `high_watermark`,
`in_cache` and `loaded_model_sizes[stats_name]` are updated. -/
def updateGetStats (st : CacheState) (key' : String) (entry : CacheRecord)
    (statsName : Option String) : CacheState :=
  match st.stats with
  | none => st
  | some s =>
    let name := (match statsName with
      | some n => if n = "" then key' else n
      | none => key')
    let s' : CacheStats :=
      { s with
        cache_size := pyInt (st.maxCacheSize * (GIG : ℚ)),
        high_watermark := max s.high_watermark (cache_size st),
        in_cache := st.cachedModels.length,
        loaded_model_sizes := bumpLoadedSize s.loaded_model_sizes name entry.size }
    { st with stats := some s' }

/-- `ModelCache.get(key, submodel_type, stats_name)`: on a missing
composite key, bump the miss counter and raise `IndexError`; on a hit,
bump the hit counter, update the stats block, move the key to the top
(right end) of the recency stack (`remove` under `suppress(Exception)`
followed by `append` — i.e. erase-if-present then append), and hand the
cache entry to the returned `ModelLocker` (the locker itself lives in
`model_locker.py`, outside this module; we return the entry). -/
def get (st : CacheState) (key : String) (submodelType : Option String)
    (statsName : Option String) : CacheState × Except CacheErr CacheRecord :=
  let key' := make_cache_key key submodelType
  match dictGet st.cachedModels key' with
  | none => (bumpMisses st, .error .indexError)
  | some entry =>
    let st₁ := bumpHits st
    let st₂ := updateGetStats st₁ key' entry statsName
    let st₃ := { st₂ with cacheStack := st₂.cacheStack.erase key' ++ [key'] }
    (st₃, .ok entry)

/-- `ModelCache.move_model_to_device(cache_entry, target_device)`.
Returns unchanged when the source and target *device types* are equal
(`'cuda' == 'cuda:0'`) or when the model handle has no `to` method.
Otherwise the weight transfer runs; `transferFails` says whether any
exception is raised inside the `try` block (state-dict copy, `model.to`).
On success the entry's `device` is set to the target (only after the full
weight set is installed); on failure the entry is deleted from ledger and
stack (`_delete_cache_entry`) and the error propagates — unless the
deletion itself raises, in which case that error propagates instead. -/
def move_model_to_device (st : CacheState) (entry : CacheRecord)
    (target : Device) (transferFails : Bool) : CacheState × Except CacheErr Unit :=
  if entry.device.dtype = target.dtype then
    (st, .ok ())
  else if ¬ entry.model.hasTo then
    (st, .ok ())
  else if transferFails then
    match delete_cache_entry st.cachedModels st.cacheStack entry with
    | (d', s', r) =>
      let st' := { st with cachedModels := d', cacheStack := s' }
      match r with
      | .ok _ => (st', .error .transferError)
      | .error e => (st', .error e)
  else
    ({ st with cachedModels :=
        dictModify st.cachedModels entry.key (fun r => { r with device := target }) },
     .ok ())

/-- The ledger snapshot `sorted(self._cached_models.items(), key=lambda x:
x[1].size)`: ascending by size, stable (Python `sorted` is stable, as is
`List.mergeSort`). -/
def sortBySize (d : Ledger) : Ledger :=
  d.mergeSort (fun a b => a.2.size ≤ b.2.size)

/-- The loop of `offload_unlocked_models` over the size-sorted snapshot.
`memAlloc t` is the `t`-th reading of `torch.cuda.memory_allocated()` (an
external oracle); the initial `vram_in_use` uses reading 0 and each
successful move triggers a fresh reading.  `failOn k` says whether the
device transfer for key `k` raises.  Per entry: `break` when
`vram_in_use <= reserved`; `continue` when not loaded; when unlocked,
move to the storage device, then set `loaded = False` and re-read. -/
def offloadGo (reserved : ℚ) (sizeRequired : Nat) (memAlloc : Nat → Nat)
    (failOn : String → Bool) :
    Ledger → CacheState → Nat → CacheState × Except CacheErr Unit
  | [], st, _ => (st, .ok ())
  | (_, entry) :: rest, st, t =>
    if ((memAlloc t + sizeRequired : Nat) : ℚ) ≤ reserved then
      (st, .ok ())
    else if ¬ entry.loaded then
      offloadGo reserved sizeRequired memAlloc failOn rest st t
    else if ¬ entry.locked then
      match move_model_to_device st entry st.storageDevice (failOn entry.key) with
      | (st', .error e) => (st', .error e)
      | (st', .ok _) =>
        let d'' :=
          dictModify st'.cachedModels entry.key (fun r => { r with loaded := false })
        offloadGo reserved sizeRequired memAlloc failOn rest { st' with cachedModels := d'' } (t + 1)
    else
      offloadGo reserved sizeRequired memAlloc failOn rest st t

/-- `ModelCache.offload_unlocked_models(size_required)`: walk the
size-sorted snapshot of the ledger, moving unlocked loaded entries back
to the storage device until the VRAM budget
`memory_allocated() + size_required <= max_vram_cache_size * GIG` is met.
(`TorchDevice.empty_cache()` has no cache-state effect.) -/
def offload_unlocked_models (st : CacheState) (sizeRequired : Nat)
    (memAlloc : Nat → Nat) (failOn : String → Bool) :
    CacheState × Except CacheErr Unit :=
  let reserved : ℚ := st.maxVramCacheSize * (GIG : ℚ)
  offloadGo reserved sizeRequired memAlloc failOn (sortBySize st.cachedModels) st 0

/-- Well-formedness of a cache state (the recency-stack coherence
invariant of the spec, plus Python-`dict`/`list` sanity): the stack has
no duplicates, stack membership coincides with ledger membership, each
ledger record carries its own key, and ledger keys are unique. -/
def WF (st : CacheState) : Prop :=
  st.cacheStack.Nodup ∧
  (∀ k ∈ st.cacheStack, (dictGet st.cachedModels k).isSome) ∧
  (∀ p ∈ st.cachedModels, p.1 ∈ st.cacheStack) ∧
  (∀ p ∈ st.cachedModels, p.2.key = p.1) ∧
  (dictKeys st.cachedModels).Nodup

instance (st : CacheState) : Decidable (WF st) := by
  unfold WF
  infer_instance

/-- What `offload_unlocked_models` does to an entry it moves: the
`loaded` flag is cleared, and the device becomes the storage device
unless the entry already had the storage device type or its handle is not
movable (no `to` method), in which case the device field is untouched. -/
def offloadedRecord (storage : Device) (e : CacheRecord) : CacheRecord :=
  { e with
    device := if e.device.dtype = storage.dtype ∨ e.model.hasTo = false
      then e.device else storage,
    loaded := false }

/-! ### Concrete example states (used by the closed witness theorems) -/

/-- The storage device of the examples: plain CPU RAM. -/
def cpuDev : Device := ⟨"cpu", none⟩

/-- The execution device of the examples. -/
def cudaDev : Device := ⟨"cuda", none⟩

/-- A movable `nn.Module` handle of the given byte size. -/
def demoModel (n : Nat) : ModelHandle := ⟨true, true, n⟩

/-- A ledger record for the examples. -/
def demoRec (k : String) (sz : Nat) (dev : Device) (lk : Nat) (ld : Bool) : CacheRecord :=
  ⟨k, demoModel sz, dev, some (), sz, ld, lk⟩

/-- A fresh stats object. -/
def demoStats : CacheStats := ⟨0, 0, 0, 0, 0, 0, []⟩

/-- A state holding one pinned 5-byte entry and a zero budget. -/
def pinnedSt : CacheState :=
  { maxCacheSize := 0, maxVramCacheSize := 0, storageDevice := cpuDev,
    executionDevice := cudaDev,
    cachedModels := [("A", demoRec "A" 5 cpuDev 1 false)],
    cacheStack := ["A"], stats := none }

/-- A state holding one unpinned bulk-resident entry and attached stats. -/
def oneEntrySt : CacheState :=
  { maxCacheSize := 6, maxVramCacheSize := 2, storageDevice := cpuDev,
    executionDevice := cudaDev,
    cachedModels := [("A", demoRec "A" 5 cpuDev 0 false)],
    cacheStack := ["A"], stats := some demoStats }

/-- An over-budget state: sizes 6, 2, 2 under a 10-byte ceiling
(`max_cache_size = 10/GIG` so that `max_cache_size * GIG = 10`),
touched in order A, B, C, A (recency stack `[B, C, A]`). -/
def lruSt : CacheState :=
  { maxCacheSize := (10 : ℚ) / (GIG : ℚ), maxVramCacheSize := 0,
    storageDevice := cpuDev, executionDevice := cudaDev,
    cachedModels := [("A", demoRec "A" 2 cpuDev 0 false),
                     ("B", demoRec "B" 6 cpuDev 0 false),
                     ("C", demoRec "C" 2 cpuDev 0 false)],
    cacheStack := ["B", "C", "A"], stats := none }

/-- The execution-resident (`cuda`) unpinned record of `execResSt`. -/
def execRec : CacheRecord := demoRec "A" 5 cudaDev 0 true

/-- A zero-budget state whose only entry lives on the execution device. -/
def execResSt : CacheState :=
  { maxCacheSize := 0, maxVramCacheSize := 0, storageDevice := cpuDev,
    executionDevice := cudaDev,
    cachedModels := [("A", execRec)], cacheStack := ["A"], stats := none }

/-- A state with two loaded, unpinned execution-resident entries. -/
def vramSt : CacheState :=
  { maxCacheSize := 6, maxVramCacheSize := 0, storageDevice := cpuDev,
    executionDevice := cudaDev,
    cachedModels := [("A", demoRec "A" 2 cudaDev 0 true), ("B", demoRec "B" 1 cudaDev 0 true)],
    cacheStack := ["A", "B"], stats := none }

/-! ## Lemmas about the ledger operations -/

/-- After a successful `_delete_cache_entry` the stack lost one element. -/
theorem delete_cache_entry_ok_length {d : Ledger} {stack : List String}
    {entry : CacheRecord} {d' : Ledger} {s' : List String}
    (h : delete_cache_entry d stack entry = (d', s', .ok ())) :
    s'.length + 1 = stack.length := by
  unfold delete_cache_entry at h
  split at h
  · split at h
    · simp only [Prod.mk.injEq] at h
      obtain ⟨-, hs, -⟩ := h
      subst hs
      rename_i hmem _
      rw [List.length_erase_of_mem hmem]
      have hpos := List.length_pos_of_mem hmem
      omega
    · simp at h
  · simp at h

/-- Successful `_delete_cache_entry` characterised. -/
theorem delete_cache_entry_ok {d : Ledger} {stack : List String}
    {entry : CacheRecord} {d' : Ledger} {s' : List String}
    (h : delete_cache_entry d stack entry = (d', s', .ok ())) :
    entry.key ∈ stack ∧ s' = stack.erase entry.key ∧
      d' = dictErase d entry.key ∧ (dictGet d entry.key).isSome := by
  unfold delete_cache_entry at h
  split at h
  · split at h
    · simp only [Prod.mk.injEq] at h
      rename_i hmem hsome
      exact ⟨hmem, h.2.1.symm, h.1.symm, hsome⟩
    · simp at h
  · simp at h


theorem dictGet_nil (k : String) : dictGet [] k = none := rfl

theorem dictGet_cons (k₀ k : String) (v : CacheRecord) (rest : Ledger) :
    dictGet ((k₀, v) :: rest) k = if k₀ = k then some v else dictGet rest k := rfl

theorem dictErase_nil (k : String) : dictErase [] k = [] := rfl

theorem dictErase_cons (k₀ k : String) (v : CacheRecord) (rest : Ledger) :
    dictErase ((k₀, v) :: rest) k =
      if k₀ = k then rest else (k₀, v) :: dictErase rest k := rfl

theorem dictSet_nil (k : String) (v : CacheRecord) : dictSet [] k v = [(k, v)] := rfl

theorem dictSet_cons (k₀ k : String) (v₀ v : CacheRecord) (rest : Ledger) :
    dictSet ((k₀, v₀) :: rest) k v =
      if k₀ = k then (k, v) :: rest else (k₀, v₀) :: dictSet rest k v := rfl

theorem dictModify_nil (k : String) (f : CacheRecord → CacheRecord) :
    dictModify [] k f = [] := rfl

theorem dictModify_cons (k₀ k : String) (v : CacheRecord) (rest : Ledger)
    (f : CacheRecord → CacheRecord) :
    dictModify ((k₀, v) :: rest) k f =
      if k₀ = k then (k₀, f v) :: rest else (k₀, v) :: dictModify rest k f := rfl

theorem dictGet_eq_some_mem {d : Ledger} {k : String} {r : CacheRecord}
    (h : dictGet d k = some r) : (k, r) ∈ d := by
  induction d with
  | nil => simp [dictGet_nil] at h
  | cons p rest ih =>
    obtain ⟨k', v⟩ := p
    rw [dictGet_cons] at h
    split at h
    · rename_i heq
      subst heq
      simp only [Option.some.injEq] at h
      subst h
      exact List.mem_cons_self _ _
    · exact List.mem_cons_of_mem _ (ih h)

theorem dictGet_isSome_iff {d : Ledger} {k : String} :
    (dictGet d k).isSome ↔ k ∈ dictKeys d := by
  induction d with
  | nil => simp [dictGet_nil, dictKeys]
  | cons p rest ih =>
    obtain ⟨k', v⟩ := p
    rw [dictGet_cons]
    simp only [dictKeys, List.map_cons, List.mem_cons]
    split
    · rename_i heq
      simp [heq]
    · rename_i hne
      simp only [dictKeys] at ih
      rw [ih]
      constructor
      · exact Or.inr
      · rintro (h | h)
        · exact absurd h.symm hne
        · exact h

theorem mem_dictGet {d : Ledger} {k : String} {r : CacheRecord}
    (hnd : (dictKeys d).Nodup) (h : (k, r) ∈ d) : dictGet d k = some r := by
  induction d with
  | nil => simp at h
  | cons p rest ih =>
    obtain ⟨k', v⟩ := p
    simp only [dictKeys, List.map_cons, List.nodup_cons] at hnd
    rcases List.mem_cons.mp h with h1 | h1
    · simp only [Prod.mk.injEq] at h1
      obtain ⟨hk, hv⟩ := h1
      subst hk
      subst hv
      rw [dictGet_cons, if_pos rfl]
    · rw [dictGet_cons]
      split
      · rename_i heq
        subst heq
        exact absurd (List.mem_map_of_mem Prod.fst h1) hnd.1
      · exact ih hnd.2 h1

theorem dictGet_dictErase_ne {d : Ledger} {k k' : String}
    (hne : k ≠ k') : dictGet (dictErase d k') k = dictGet d k := by
  induction d with
  | nil => rfl
  | cons p rest ih =>
    obtain ⟨k₀, v⟩ := p
    rw [dictErase_cons]
    split
    · rename_i heq
      subst heq
      rw [dictGet_cons, if_neg (fun hh => hne hh.symm)]
    · rw [dictGet_cons, dictGet_cons]
      split
      · rfl
      · exact ih

theorem dictKeys_dictErase (d : Ledger) (k : String) :
    dictKeys (dictErase d k) = (dictKeys d).erase k := by
  induction d with
  | nil => rfl
  | cons p rest ih =>
    obtain ⟨k₀, v⟩ := p
    rw [dictErase_cons]
    split
    · rename_i heq
      subst heq
      simp only [dictKeys, List.map_cons]
      rw [List.erase_cons_head]
    · rename_i hne
      simp only [dictKeys, List.map_cons]
      rw [List.erase_cons_tail]
      · simp only [dictKeys] at ih
        rw [ih]
      · simp only [beq_iff_eq]
        exact hne

theorem dictGet_dictErase_self {d : Ledger} {k : String}
    (hnd : (dictKeys d).Nodup) : dictGet (dictErase d k) k = none := by
  induction d with
  | nil => rfl
  | cons p rest ih =>
    obtain ⟨k₀, v⟩ := p
    simp only [dictKeys, List.map_cons, List.nodup_cons] at hnd
    rw [dictErase_cons]
    split
    · rename_i heq
      subst heq
      cases hopt : dictGet rest k₀ with
      | none => rfl
      | some r =>
        exact absurd (dictGet_isSome_iff.mp (by rw [hopt]; rfl)) hnd.1
    · rename_i hne
      rw [dictGet_cons, if_neg hne]
      exact ih hnd.2

theorem sumSizes_nil : sumSizes [] = 0 := rfl

theorem sumSizes_cons (k : String) (v : CacheRecord) (rest : Ledger) :
    sumSizes ((k, v) :: rest) = v.size + sumSizes rest := by
  simp [sumSizes]

theorem sumSizes_dictErase {d : Ledger} {k : String} {r : CacheRecord}
    (h : dictGet d k = some r) :
    sumSizes (dictErase d k) + r.size = sumSizes d := by
  induction d with
  | nil => simp [dictGet_nil] at h
  | cons p rest ih =>
    obtain ⟨k₀, v⟩ := p
    rw [dictGet_cons] at h
    rw [dictErase_cons]
    split
    · rename_i heq
      rw [if_pos heq] at h
      simp only [Option.some.injEq] at h
      subst h
      rw [sumSizes_cons]
      omega
    · rename_i hne
      rw [if_neg hne] at h
      rw [sumSizes_cons, sumSizes_cons]
      have := ih h
      omega

theorem dictGet_dictModify_self (d : Ledger) (k : String) (f : CacheRecord → CacheRecord) :
    dictGet (dictModify d k f) k = Option.map f (dictGet d k) := by
  induction d with
  | nil => rfl
  | cons p rest ih =>
    obtain ⟨k₀, v⟩ := p
    rw [dictModify_cons]
    split
    · rename_i heq
      rw [dictGet_cons, dictGet_cons, if_pos heq, if_pos heq, Option.map_some']
    · rename_i hne
      rw [dictGet_cons, dictGet_cons, if_neg hne, if_neg hne]
      exact ih

theorem dictGet_dictModify_ne {d : Ledger} {k k' : String}
    (f : CacheRecord → CacheRecord) (hne : k ≠ k') :
    dictGet (dictModify d k' f) k = dictGet d k := by
  induction d with
  | nil => rfl
  | cons p rest ih =>
    obtain ⟨k₀, v⟩ := p
    rw [dictModify_cons]
    split
    · rename_i heq
      subst heq
      rw [dictGet_cons, dictGet_cons, if_neg (fun hh => hne hh.symm),
        if_neg (fun hh => hne hh.symm)]
    · rw [dictGet_cons, dictGet_cons]
      split
      · rfl
      · exact ih

theorem dictKeys_dictModify (d : Ledger) (k : String) (f : CacheRecord → CacheRecord) :
    dictKeys (dictModify d k f) = dictKeys d := by
  induction d with
  | nil => rfl
  | cons p rest ih =>
    obtain ⟨k₀, v⟩ := p
    rw [dictModify_cons]
    split
    · rfl
    · simp only [dictKeys, List.map_cons] at ih ⊢
      rw [ih]

theorem dictGet_dictSet_self (d : Ledger) (k : String) (v : CacheRecord) :
    dictGet (dictSet d k v) k = some v := by
  induction d with
  | nil => rw [dictSet_nil, dictGet_cons, if_pos rfl]
  | cons p rest ih =>
    obtain ⟨k₀, v₀⟩ := p
    rw [dictSet_cons]
    split
    · rw [dictGet_cons, if_pos rfl]
    · rename_i hne
      rw [dictGet_cons, if_neg hne]
      exact ih

theorem dictGet_dictSet_ne {d : Ledger} {k k' : String} (v : CacheRecord)
    (hne : k ≠ k') : dictGet (dictSet d k' v) k = dictGet d k := by
  induction d with
  | nil =>
    rw [dictSet_nil, dictGet_cons, if_neg (fun hh => hne hh.symm), dictGet_nil]
  | cons p rest ih =>
    obtain ⟨k₀, v₀⟩ := p
    rw [dictSet_cons]
    split
    · rename_i heq
      subst heq
      rw [dictGet_cons, dictGet_cons, if_neg (fun hh => hne hh.symm),
        if_neg (fun hh => hne hh.symm)]
    · rw [dictGet_cons, dictGet_cons]
      split
      · rfl
      · exact ih

theorem dictKeys_dictSet_absent {d : Ledger} {k : String} (v : CacheRecord)
    (h : dictGet d k = none) : dictKeys (dictSet d k v) = dictKeys d ++ [k] := by
  induction d with
  | nil => rfl
  | cons p rest ih =>
    obtain ⟨k₀, v₀⟩ := p
    rw [dictGet_cons] at h
    split at h
    · simp at h
    · rename_i hne
      rw [dictSet_cons, if_neg hne]
      simp only [dictKeys, List.map_cons, List.cons_append]
      simp only [dictKeys] at ih
      rw [ih h]

theorem dictErase_subset {d : Ledger} {k : String} {p : String × CacheRecord}
    (h : p ∈ dictErase d k) : p ∈ d := by
  induction d with
  | nil => simp [dictErase_nil] at h
  | cons q rest ih =>
    obtain ⟨k₀, v⟩ := q
    rw [dictErase_cons] at h
    split at h
    · exact List.mem_cons_of_mem _ h
    · rcases List.mem_cons.mp h with h1 | h1
      · exact h1 ▸ List.mem_cons_self _ _
      · exact List.mem_cons_of_mem _ (ih h1)

theorem mem_dictErase_ne {d : Ledger} {k : String} {p : String × CacheRecord}
    (hnd : (dictKeys d).Nodup) (h : p ∈ dictErase d k) : p.1 ≠ k := by
  intro hk
  have h1 : p.1 ∈ dictKeys (dictErase d k) := List.mem_map_of_mem Prod.fst h
  rw [dictKeys_dictErase] at h1
  rw [hk] at h1
  exact (List.Nodup.mem_erase_iff hnd).mp h1 |>.1 rfl

theorem erase_get_take {l : List String} (hnd : l.Nodup) {pos : Nat}
    (h : pos < l.length) :
    (l.erase (l.get ⟨pos, h⟩)).take pos = l.take pos := by
  obtain ⟨x, hx⟩ : ∃ x, l.get ⟨pos, h⟩ = x := ⟨_, rfl⟩
  rw [hx]
  have hdrop : l.drop pos = x :: l.drop (pos + 1) := by
    rw [← hx]
    exact List.drop_eq_getElem_cons h
  have hsplit : l.take pos ++ l.drop pos = l := List.take_append_drop pos l
  have hnd2 : (l.take pos ++ l.drop pos).Nodup := by
    rw [hsplit]
    exact hnd
  have hnm : x ∉ l.take pos := by
    intro hmem
    exact (List.disjoint_of_nodup_append hnd2) hmem
      (by rw [hdrop]; exact List.mem_cons_self _ _)
  have hlen : (l.take pos).length = pos := by
    rw [List.length_take]
    omega
  conv_lhs => rw [← hsplit, hdrop]
  rw [List.erase_append_right _ hnm, List.erase_cons_head]
  exact List.take_left' hlen

/-- Master specification of the eviction loop: from a coherent loop state
(the examined prefix all locked), the loop terminates without an
exception, preserves coherence, only ever removes unlocked entries, and
stops either with the budget met or with only locked entries left. -/
theorem makeRoomGo_spec (maxS : ℚ) (need : Nat) :
    ∀ (d : Ledger) (stack : List String) (pos : Nat) (cur : Int) (cleared : Nat),
    stack.Nodup →
    (∀ k ∈ stack, (dictGet d k).isSome) →
    (∀ p ∈ d, p.1 ∈ stack) →
    (∀ p ∈ d, p.2.key = p.1) →
    (dictKeys d).Nodup →
    cur = (sumSizes d : Int) →
    (∀ k ∈ stack.take pos, ∀ r, dictGet d k = some r → r.locked = true) →
    ∃ d' s' c',
      makeRoomGo maxS need d stack pos cur cleared = (d', s', c', .ok ()) ∧
      s'.Nodup ∧ (∀ k ∈ s', (dictGet d' k).isSome) ∧ (∀ p ∈ d', p.1 ∈ s') ∧
      (∀ p ∈ d', p.2.key = p.1) ∧ (dictKeys d').Nodup ∧ (∀ p ∈ d', p ∈ d) ∧
      (((sumSizes d' : ℚ) + (need : ℚ) ≤ maxS) ∨
        (∀ k r, dictGet d' k = some r → r.locked = true)) ∧
      (∀ k r, dictGet d k = some r → r.locked = true → dictGet d' k = some r) := by
  intro d stack pos cur cleared
  induction d, stack, pos, cur, cleared using makeRoomGo.induct maxS need with
  | case1 d stack pos cur cleared h mk hnone =>
    intro _ H2 _ _ _ _ _
    have hnone' : dictGet d (stack.get ⟨pos, h.2⟩) = none := hnone
    have hsome := H2 _ (stack.get_mem pos h.2)
    rw [hnone'] at hsome
    simp at hsome
  | case2 d stack pos cur cleared h mk entry hget hlock ih =>
    intro H1 H2 H3 H4 H5 H6 H7
    have hget' : dictGet d (stack.get ⟨pos, h.2⟩) = some entry := hget
    have H7' : ∀ k ∈ stack.take (pos + 1), ∀ r, dictGet d k = some r → r.locked = true := by
      intro k hk r hr
      rw [List.take_succ] at hk
      rcases List.mem_append.mp hk with hk | hk
      · exact H7 k hk r hr
      · have hgetelem : stack[pos]? = some (stack.get ⟨pos, h.2⟩) := by
          rw [List.getElem?_eq_getElem h.2]
          rfl
        rw [hgetelem] at hk
        simp only [Option.toList_some, List.mem_singleton] at hk
        subst hk
        rw [hr] at hget'
        cases hget'
        exact hlock
    obtain ⟨d', s', c', heq, rest⟩ := ih H1 H2 H3 H4 H5 H6 H7'
    refine ⟨d', s', c', ?_, rest⟩
    rw [makeRoomGo.eq_def, dif_pos h]
    simp only [hget']
    rw [if_pos hlock]
    exact heq
  | case3 d stack pos cur cleared h mk entry hget hlock d2 s2 a hdel ih =>
    intro H1 H2 H3 H4 H5 H6 H7
    have hget' : dictGet d (stack.get ⟨pos, h.2⟩) = some entry := hget
    obtain ⟨hmem, hs2, hd2, hsome⟩ := delete_cache_entry_ok hdel
    have hkey : entry.key = stack.get ⟨pos, h.2⟩ :=
      H4 _ (dictGet_eq_some_mem hget')
    have hgetE : dictGet d entry.key = some entry := by
      rw [hkey]
      exact hget'
    subst hd2
    subst hs2
    have H1' : (stack.erase entry.key).Nodup := H1.erase _
    have H2' : ∀ k ∈ stack.erase entry.key, (dictGet (dictErase d entry.key) k).isSome := by
      intro k hk
      have hkne : k ≠ entry.key := ((List.Nodup.mem_erase_iff H1).mp hk).1
      rw [dictGet_dictErase_ne hkne]
      exact H2 k (List.mem_of_mem_erase hk)
    have H3' : ∀ p ∈ dictErase d entry.key, p.1 ∈ stack.erase entry.key := by
      intro p hp
      have hpne : p.1 ≠ entry.key := mem_dictErase_ne H5 hp
      exact (List.Nodup.mem_erase_iff H1).mpr ⟨hpne, H3 p (dictErase_subset hp)⟩
    have H4' : ∀ p ∈ dictErase d entry.key, p.2.key = p.1 :=
      fun p hp => H4 p (dictErase_subset hp)
    have H5' : (dictKeys (dictErase d entry.key)).Nodup := by
      rw [dictKeys_dictErase]
      exact H5.erase _
    have H6' : cur - (entry.size : Int) = (sumSizes (dictErase d entry.key) : Int) := by
      have := sumSizes_dictErase hgetE
      omega
    have H7' : ∀ k ∈ (stack.erase entry.key).take pos, ∀ r,
        dictGet (dictErase d entry.key) k = some r → r.locked = true := by
      intro k hk r hr
      rw [hkey, erase_get_take H1 h.2] at hk
      have hkne : k ≠ entry.key := by
        intro hkk
        have hkey2 : entry.key = stack[pos] := hkey
        have hdropmem : entry.key ∈ stack.drop pos := by
          rw [List.drop_eq_getElem_cons h.2, ← hkey2]
          exact List.mem_cons_self _ _
        have hnd2 : (stack.take pos ++ stack.drop pos).Nodup := by
          rw [List.take_append_drop]
          exact H1
        exact (List.disjoint_of_nodup_append hnd2) (hkk ▸ hk) hdropmem
      rw [dictGet_dictErase_ne hkne] at hr
      exact H7 k hk r hr
    obtain ⟨d', s', c', heq, hr1, hr2, hr3, hr4, hr5, hr6, hr7, hr8⟩ :=
      ih H1' H2' H3' H4' H5' H6' H7'
    refine ⟨d', s', c', ?_, hr1, hr2, hr3, hr4, hr5,
      fun p hp => dictErase_subset (hr6 p hp), hr7, ?_⟩
    · rw [makeRoomGo.eq_def, dif_pos h]
      simp only [hget']
      rw [if_neg hlock]
      rw [hdel]
      exact heq
    · intro k r hk hlk
      have hkne : k ≠ entry.key := by
        intro hkk
        subst hkk
        rw [hk] at hgetE
        cases hgetE
        rw [hlk] at hlock
        exact hlock rfl
      exact hr8 k r (by rw [dictGet_dictErase_ne hkne]; exact hk) hlk
  | case4 d stack pos cur cleared h mk entry hget hlock d2 s2 e hdel =>
    intro H1 H2 H3 H4 H5 H6 H7
    have hget' : dictGet d (stack.get ⟨pos, h.2⟩) = some entry := hget
    have hkey : entry.key = stack.get ⟨pos, h.2⟩ :=
      H4 _ (dictGet_eq_some_mem hget')
    have hmem : entry.key ∈ stack := by
      rw [hkey]
      exact stack.get_mem pos h.2
    have hsome : (dictGet d entry.key).isSome := by
      rw [hkey, hget']
      rfl
    unfold delete_cache_entry at hdel
    rw [if_pos hmem, if_pos hsome] at hdel
    simp at hdel
  | case5 d stack pos cur cleared h =>
    intro H1 H2 H3 H4 H5 H6 H7
    refine ⟨d, stack, cleared, ?_, H1, H2, H3, H4, H5, fun p hp => hp, ?_, fun k r hk _ => hk⟩
    · rw [makeRoomGo.eq_def, dif_neg h]
    · rcases not_and_or.mp h with h1 | h1
      · left
        push_neg at h1
        subst H6
        exact_mod_cast h1
      · right
        intro k r hk
        have hmem : k ∈ stack := H3 _ (dictGet_eq_some_mem hk)
        have hmem2 : k ∈ stack.take pos := by
          rw [List.take_of_length_le (by omega)]
          exact hmem
        exact H7 k hmem2 r hk

/-- `setCleared` only touches the stats field. -/
theorem setCleared_fields (st : CacheState) (c : Nat) :
    (setCleared st c).cachedModels = st.cachedModels ∧
    (setCleared st c).cacheStack = st.cacheStack ∧
    (setCleared st c).storageDevice = st.storageDevice ∧
    (setCleared st c).executionDevice = st.executionDevice ∧
    (setCleared st c).maxCacheSize = st.maxCacheSize ∧
    (setCleared st c).maxVramCacheSize = st.maxVramCacheSize := by
  cases h : st.stats <;> simp [setCleared, h]

/-- `make_room` on a well-formed state: terminates normally, preserves
well-formedness, removes only entries that were present, converges on the
budget or leaves only locked entries, preserves every locked entry, and
leaves the configuration untouched. -/
theorem make_room_spec (st : CacheState) (size : Nat) (hwf : WF st) :
    (make_room st size).2 = .ok () ∧
    WF (make_room st size).1 ∧
    (∀ p ∈ (make_room st size).1.cachedModels, p ∈ st.cachedModels) ∧
    (((cache_size (make_room st size).1 : ℚ) + (size : ℚ) ≤
        st.maxCacheSize * (GIG : ℚ)) ∨
      (∀ k r, dictGet (make_room st size).1.cachedModels k = some r →
        r.locked = true)) ∧
    (∀ k r, dictGet st.cachedModels k = some r → r.locked = true →
      dictGet (make_room st size).1.cachedModels k = some r) ∧
    (make_room st size).1.storageDevice = st.storageDevice ∧
    (make_room st size).1.maxCacheSize = st.maxCacheSize ∧
    (make_room st size).1.executionDevice = st.executionDevice ∧
    (make_room st size).1.maxVramCacheSize = st.maxVramCacheSize ∧
    (make_room st size).1.cacheStack.Nodup := by
  obtain ⟨W1, W2, W3, W4, W5⟩ := hwf
  obtain ⟨d', s', c', heq, R1, R2, R3, R4, R5, R6, R7, R8⟩ :=
    makeRoomGo_spec (st.maxCacheSize * (GIG : ℚ)) size st.cachedModels
      st.cacheStack 0 (cache_size st : Int) 0 W1 W2 W3 W4 W5 rfl
      (by simp)
  have hmr : make_room st size =
      (if c' > 0 then setCleared { st with cachedModels := d', cacheStack := s' } c'
       else { st with cachedModels := d', cacheStack := s' }, .ok ()) := by
    unfold make_room
    simp only [heq]
  set st₁ : CacheState := { st with cachedModels := d', cacheStack := s' } with hst₁
  have hfields : (make_room st size).1.cachedModels = d' ∧
      (make_room st size).1.cacheStack = s' ∧
      (make_room st size).1.storageDevice = st.storageDevice ∧
      (make_room st size).1.executionDevice = st.executionDevice ∧
      (make_room st size).1.maxCacheSize = st.maxCacheSize ∧
      (make_room st size).1.maxVramCacheSize = st.maxVramCacheSize := by
    rw [hmr]
    by_cases hc : c' > 0
    · simp only [if_pos hc]
      obtain ⟨f1, f2, f3, f4, f5, f6⟩ := setCleared_fields st₁ c'
      exact ⟨f1, f2, f3, f4, f5, f6⟩
    · simp [if_neg hc]
  obtain ⟨f1, f2, f3, f4, f5, f6⟩ := hfields
  refine ⟨by rw [hmr], ⟨?_, ?_, ?_, ?_, ?_⟩, ?_, ?_, ?_, f3, f5, f4, f6, ?_⟩
  · rw [f2]; exact R1
  · rw [f1, f2]; exact R2
  · rw [f1, f2]; exact R3
  · rw [f1]; exact R4
  · rw [f1]; exact R5
  · rw [f1]; exact R6
  · unfold cache_size
    rw [f1]
    exact R7
  · rw [f1]; exact R8
  · rw [f2]; exact R1

/-! ## Claim theorems -/

/-- C5: Idempotent put — `put` on a key already present in the cache is a
complete no-op: the state (ledger entry, recency stack, stats) is returned
unchanged, whatever model handle is passed. -/
theorem put_existing_key_noop (st : CacheState) (key : String)
    (model : ModelHandle) (submodelType : Option String)
    (h : (dictGet st.cachedModels (make_cache_key key submodelType)).isSome) :
    put st key model submodelType = (st, .ok ()) := by
  unfold put
  rw [if_pos h]

/-- C5 witness: re-`put` of the resident key `"A"` with a different handle
leaves the one-entry state untouched. -/
theorem put_existing_key_noop_witness :
    put oneEntrySt "A" (demoModel 7) none = (oneEntrySt, .ok ()) :=
  put_existing_key_noop oneEntrySt "A" (demoModel 7) none (by decide)

/-- C10: `move_model_to_device` is a no-op (state returned unchanged, no
error) when the source and target device types coincide (device index is
ignored, so `cuda` and `cuda:0` count alike) or when the model handle has
no `to` method. -/
theorem move_model_noop (st : CacheState) (entry : CacheRecord)
    (target : Device) (transferFails : Bool)
    (h : entry.device.dtype = target.dtype ∨ entry.model.hasTo = false) :
    move_model_to_device st entry target transferFails = (st, .ok ()) := by
  unfold move_model_to_device
  rcases h with h | h
  · rw [if_pos h]
  · by_cases h2 : entry.device.dtype = target.dtype
    · rw [if_pos h2]
    · rw [if_neg h2, if_pos (by rw [h]; exact Bool.false_ne_true)]

/-- C10 witness: moving a CPU-resident entry to `cpu:0` (same device type,
different index) changes nothing, even if the transfer would have failed. -/
theorem move_model_noop_witness :
    move_model_to_device oneEntrySt (demoRec "A" 5 cpuDev 0 false)
      ⟨"cpu", some 0⟩ true = (oneEntrySt, .ok ()) :=
  move_model_noop oneEntrySt (demoRec "A" 5 cpuDev 0 false) ⟨"cpu", some 0⟩ true
    (by left; decide)

/-- C4: `get` on an absent composite key raises `IndexError` (the spec's
`NotFoundError`); with a stats object attached the miss counter increases
by exactly one while the hit counter (and every other stats field) stays
put; without one the stats stay `none`; the ledger and recency stack are
not modified. -/
theorem get_absent_key (st : CacheState) (key : String)
    (submodelType : Option String) (statsName : Option String)
    (h : dictGet st.cachedModels (make_cache_key key submodelType) = none) :
    (get st key submodelType statsName).2 = .error .indexError ∧
    (get st key submodelType statsName).1.cachedModels = st.cachedModels ∧
    (get st key submodelType statsName).1.cacheStack = st.cacheStack ∧
    (∀ s0, st.stats = some s0 →
      (get st key submodelType statsName).1.stats =
        some { s0 with misses := s0.misses + 1 }) ∧
    (st.stats = none → (get st key submodelType statsName).1.stats = none) := by
  refine ⟨by simp only [get, h], ?_, ?_, ?_, ?_⟩
  · simp only [get, h]
    unfold bumpMisses
    cases hs : st.stats <;> rfl
  · simp only [get, h]
    unfold bumpMisses
    cases hs : st.stats <;> rfl
  · intro s0 hs
    simp only [get, h]
    unfold bumpMisses
    rw [hs]
  · intro hs
    simp only [get, h]
    unfold bumpMisses
    rw [hs]
    exact hs

/-- C4 witness: `get "Q"` on the one-entry state (which has stats
attached) fails and bumps only the miss counter. -/
theorem get_absent_key_witness :
    (get oneEntrySt "Q" none none).2 = .error .indexError ∧
    (get oneEntrySt "Q" none none).1.stats =
      some { demoStats with misses := 1 } := by
  obtain ⟨h1, -, -, h4, -⟩ := get_absent_key oneEntrySt "Q" none none (by decide)
  refine ⟨h1, ?_⟩
  have h5 := h4 demoStats rfl
  exact h5

/-- C1: Pin safety — on a well-formed state, `make_room` returns normally
and every pinned entry (pin count > 0) present in the ledger before the
call is still present afterwards, same key, same record: eviction removes
only entries whose pin count is zero. -/
theorem make_room_pin_safety (st : CacheState) (size : Nat) (k : String)
    (r : CacheRecord) (hwf : WF st)
    (hr : dictGet st.cachedModels k = some r) (hl : r.locked = true) :
    (make_room st size).2 = .ok () ∧
    dictGet (make_room st size).1.cachedModels k = some r := by
  obtain ⟨h1, -, -, -, h5, -⟩ := make_room_spec st size hwf
  exact ⟨h1, h5 k r hr hl⟩

/-- C1 witness: the pinned 5-byte entry survives `make_room` under a zero
budget. -/
theorem make_room_pin_safety_witness :
    (make_room pinnedSt 1).2 = .ok () ∧
    dictGet (make_room pinnedSt 1).1.cachedModels "A" =
      some (demoRec "A" 5 cpuDev 1 false) :=
  make_room_pin_safety pinnedSt 1 "A" (demoRec "A" 5 cpuDev 1 false)
    (by decide) (by decide) (by decide)

/-- C2: Budget convergence — after `make_room(size)` on a well-formed
state, either `cache_size() + size <= max_cache_size * GIG` or every entry
remaining in the cache is pinned. -/
theorem make_room_budget_convergence (st : CacheState) (size : Nat)
    (hwf : WF st) :
    ((cache_size (make_room st size).1 : ℚ) + (size : ℚ) ≤
        st.maxCacheSize * (GIG : ℚ)) ∨
    (∀ k r, dictGet (make_room st size).1.cachedModels k = some r →
      r.locked = true) := by
  obtain ⟨-, -, -, h4, -⟩ := make_room_spec st size hwf
  exact h4

/-- C2 witness: the claim instantiated on the pinned zero-budget state. -/
theorem make_room_budget_convergence_witness :
    ((cache_size (make_room pinnedSt 1).1 : ℚ) + (1 : ℚ) ≤
        pinnedSt.maxCacheSize * (GIG : ℚ)) ∨
    (∀ k r, dictGet (make_room pinnedSt 1).1.cachedModels k = some r →
      r.locked = true) :=
  make_room_budget_convergence pinnedSt 1 (by decide)

/-- C3: Transfer-failure atomicity — for a ledger entry whose transfer to
a different device type runs (the handle is movable): when the transfer
fails mid-flight, the entry is deleted from both the ledger and the
recency stack, no other entry is touched, and the error propagates to the
caller; when the transfer succeeds, the entry's device (pool) field — and
nothing else — is updated to the target, i.e. the device field reaches the
target only on full installation, never a half state. -/
theorem move_transfer_failure_atomicity (st : CacheState)
    (entry : CacheRecord) (target : Device) (hwf : WF st)
    (halias : dictGet st.cachedModels entry.key = some entry)
    (hdev : entry.device.dtype ≠ target.dtype)
    (hto : entry.model.hasTo = true) :
    (move_model_to_device st entry target true).2 = .error .transferError ∧
    dictGet (move_model_to_device st entry target true).1.cachedModels
      entry.key = none ∧
    entry.key ∉ (move_model_to_device st entry target true).1.cacheStack ∧
    (∀ k, k ≠ entry.key →
      dictGet (move_model_to_device st entry target true).1.cachedModels k =
        dictGet st.cachedModels k) ∧
    (move_model_to_device st entry target false).2 = .ok () ∧
    dictGet (move_model_to_device st entry target false).1.cachedModels
      entry.key = some { entry with device := target } ∧
    (move_model_to_device st entry target false).1.cacheStack =
      st.cacheStack := by
  obtain ⟨W1, W2, W3, W4, W5⟩ := hwf
  have hmem : entry.key ∈ st.cacheStack := W3 _ (dictGet_eq_some_mem halias)
  have hsome : (dictGet st.cachedModels entry.key).isSome = true := by
    rw [halias]
    rfl
  have hfail : move_model_to_device st entry target true =
      ({ st with cachedModels := dictErase st.cachedModels entry.key,
                 cacheStack := st.cacheStack.erase entry.key },
       .error .transferError) := by
    unfold move_model_to_device
    rw [if_neg hdev, if_neg (not_not_intro hto), if_pos rfl]
    simp only [delete_cache_entry, hmem, hsome, if_true]
  have hsucc : move_model_to_device st entry target false =
      ({ st with cachedModels := dictModify st.cachedModels entry.key (fun r => { r with device := target }) }, .ok ()) := by
    unfold move_model_to_device
    rw [if_neg hdev, if_neg (not_not_intro hto), if_neg Bool.false_ne_true]
  refine ⟨by rw [hfail], ?_, ?_, ?_, by rw [hsucc], ?_, by rw [hsucc]⟩
  · rw [hfail]
    exact dictGet_dictErase_self W5
  · rw [hfail]
    intro hmem2
    exact ((List.Nodup.mem_erase_iff W1).mp hmem2).1 rfl
  · intro k hk
    rw [hfail]
    exact dictGet_dictErase_ne hk
  · rw [hsucc]
    show dictGet (dictModify st.cachedModels entry.key
      (fun r => { r with device := target })) entry.key = _
    rw [dictGet_dictModify_self, halias]
    rfl

/-- C3 witness: on the one-entry CPU-resident state, a failed transfer to
`cuda` deletes the entry and propagates the error; a successful one sets
its device to `cuda`. -/
theorem move_transfer_failure_atomicity_witness :
    (move_model_to_device oneEntrySt (demoRec "A" 5 cpuDev 0 false) cudaDev
      true).2 = .error .transferError ∧
    dictGet (move_model_to_device oneEntrySt (demoRec "A" 5 cpuDev 0 false)
      cudaDev true).1.cachedModels "A" = none ∧
    dictGet (move_model_to_device oneEntrySt (demoRec "A" 5 cpuDev 0 false)
      cudaDev false).1.cachedModels "A" =
      some { demoRec "A" 5 cpuDev 0 false with device := cudaDev } := by
  obtain ⟨h1, h2, -, -, -, h6, -⟩ := move_transfer_failure_atomicity oneEntrySt
    (demoRec "A" 5 cpuDev 0 false) cudaDev (by decide) (by decide) (by decide)
    (by decide)
  exact ⟨h1, h2, h6⟩

/-- C7: Soft capacity on put — `put` of an absent key on a well-formed
state always inserts (the budget is advisory): the call returns normally,
`exists` becomes true, the fresh entry stores the composite key, the
handle, the storage device (bulk pool), the state-dict snapshot for
`nn.Module` handles, the size computed once at insertion, and the key is
pushed onto the recency-stack tail. -/
theorem put_absent_key_inserts (st : CacheState) (key : String)
    (model : ModelHandle) (submodelType : Option String) (hwf : WF st)
    (habs : dictGet st.cachedModels (make_cache_key key submodelType) = none) :
    (put st key model submodelType).2 = .ok () ∧
    existsInCache (put st key model submodelType).1 key submodelType = true ∧
    dictGet (put st key model submodelType).1.cachedModels
        (make_cache_key key submodelType) =
      some { key := make_cache_key key submodelType, model := model,
             device := st.storageDevice,
             state_dict := if model.isNnModule then some () else none,
             size := calc_model_size_by_data model, loaded := false,
             locks := 0 } ∧
    (put st key model submodelType).1.cacheStack =
      (make_room st (calc_model_size_by_data model)).1.cacheStack ++
        [make_cache_key key submodelType] := by
  obtain ⟨h1, -, -, -, -, hstor, -, -, -, -⟩ :=
    make_room_spec st (calc_model_size_by_data model) hwf
  have hpair : make_room st (calc_model_size_by_data model) =
      ((make_room st (calc_model_size_by_data model)).1, .ok ()) := by
    rw [← h1]
  have hput : put st key model submodelType =
      ({ (make_room st (calc_model_size_by_data model)).1 with cachedModels := dictSet (make_room st (calc_model_size_by_data model)).1.cachedModels (make_cache_key key submodelType) { key := make_cache_key key submodelType, model := model, device := (make_room st (calc_model_size_by_data model)).1.storageDevice, state_dict := if model.isNnModule then some () else none, size := calc_model_size_by_data model, loaded := false, locks := 0 }, cacheStack := (make_room st (calc_model_size_by_data model)).1.cacheStack ++ [make_cache_key key submodelType] }, .ok ()) := by
    unfold put
    simp only [habs, Option.isSome_none, Bool.false_eq_true, if_false]
    rw [hpair]
  refine ⟨by rw [hput], ?_, ?_, by rw [hput]⟩
  · unfold existsInCache
    rw [hput]
    show (dictGet (dictSet _ _ _) _).isSome = true
    rw [dictGet_dictSet_self]
    rfl
  · rw [hput]
    show dictGet (dictSet _ _ _) _ = _
    rw [dictGet_dictSet_self, hstor]

/-- C7 witness: `put "B"` of a 7-byte model into the one-entry state
(whose 6 GB ceiling it does not even strain) inserts the record on the
bulk device and appends `"B"` to the stack. -/
theorem put_absent_key_inserts_witness :
    (put oneEntrySt "B" (demoModel 7) none).2 = .ok () ∧
    existsInCache (put oneEntrySt "B" (demoModel 7) none).1 "B" none = true ∧
    dictGet (put oneEntrySt "B" (demoModel 7) none).1.cachedModels "B" =
      some { key := "B", model := demoModel 7, device := oneEntrySt.storageDevice,
             state_dict := if (demoModel 7).isNnModule then some () else none,
             size := calc_model_size_by_data (demoModel 7), loaded := false,
             locks := 0 } := by
  obtain ⟨h1, h2, h3, -⟩ := put_absent_key_inserts oneEntrySt "B" (demoModel 7)
    none (by decide) (by decide)
  exact ⟨h1, h2, h3⟩

/-- Inserting an absent key appends the binding at the end (Python dict
insertion order). -/
theorem dictSet_absent_eq_append {d : Ledger} {k : String} (v : CacheRecord)
    (h : dictGet d k = none) : dictSet d k v = d ++ [(k, v)] := by
  induction d with
  | nil => rfl
  | cons p rest ih =>
    obtain ⟨k₀, v₀⟩ := p
    rw [dictGet_cons] at h
    split at h
    · simp at h
    · rename_i hne
      rw [dictSet_cons, if_neg hne, List.cons_append, ih h]

/-- `bumpMisses` only touches the stats field. -/
theorem bumpMisses_fields (st : CacheState) :
    (bumpMisses st).cachedModels = st.cachedModels ∧
    (bumpMisses st).cacheStack = st.cacheStack := by
  unfold bumpMisses
  cases st.stats <;> exact ⟨rfl, rfl⟩

/-- `bumpHits` only touches the stats field. -/
theorem bumpHits_fields (st : CacheState) :
    (bumpHits st).cachedModels = st.cachedModels ∧
    (bumpHits st).cacheStack = st.cacheStack := by
  unfold bumpHits
  cases st.stats <;> exact ⟨rfl, rfl⟩

/-- `updateGetStats` only touches the stats field. -/
theorem updateGetStats_fields (st : CacheState) (key' : String)
    (entry : CacheRecord) (sn : Option String) :
    (updateGetStats st key' entry sn).cachedModels = st.cachedModels ∧
    (updateGetStats st key' entry sn).cacheStack = st.cacheStack := by
  unfold updateGetStats
  cases st.stats <;> exact ⟨rfl, rfl⟩

/-- The observable effect of a `get` hit: ledger unchanged, looked-up key
moved to the stack tail, the entry returned. -/
theorem get_hit_eq (st : CacheState) (key : String) (sub sn : Option String)
    (entry : CacheRecord)
    (hk : dictGet st.cachedModels (make_cache_key key sub) = some entry) :
    (get st key sub sn).1.cachedModels = st.cachedModels ∧
    (get st key sub sn).1.cacheStack =
      st.cacheStack.erase (make_cache_key key sub) ++
        [make_cache_key key sub] ∧
    (get st key sub sn).2 = .ok entry := by
  have hb := bumpHits_fields st
  have hu := updateGetStats_fields (bumpHits st) (make_cache_key key sub) entry sn
  refine ⟨?_, ?_, ?_⟩
  · simp only [get, hk]
    rw [hu.1, hb.1]
  · simp only [get, hk]
    rw [hu.2, hb.2]
  · simp only [get, hk]

/-- C9: Recency-stack coherence — on a well-formed state, every public
operation (`put`, `get`, `make_room`) preserves the invariant that the
recency stack holds exactly the ledger keys, each exactly once; and a
successful `get` moves the looked-up key to the stack tail while keeping
the relative order of all other keys (the stack becomes
`erase key ++ [key]`). -/
theorem cache_coherence (st : CacheState) (hwf : WF st) :
    (∀ key model sub, WF (put st key model sub).1) ∧
    (∀ key sub sn, WF (get st key sub sn).1 ∧
      (∀ e, (get st key sub sn).2 = .ok e →
        (get st key sub sn).1.cacheStack =
          st.cacheStack.erase (make_cache_key key sub) ++
            [make_cache_key key sub])) ∧
    (∀ size, WF (make_room st size).1) := by
  obtain ⟨W1, W2, W3, W4, W5⟩ := hwf
  refine ⟨?_, ?_, ?_⟩
  · -- put
    intro key model sub
    by_cases hk : (dictGet st.cachedModels (make_cache_key key sub)).isSome
    · have hnoop : put st key model sub = (st, .ok ()) := by
        unfold put
        rw [if_pos hk]
      rw [hnoop]
      exact ⟨W1, W2, W3, W4, W5⟩
    · have habs : dictGet st.cachedModels (make_cache_key key sub) = none := by
        cases hopt : dictGet st.cachedModels (make_cache_key key sub)
        · rfl
        · rw [hopt] at hk
          exact absurd rfl hk
      obtain ⟨h1, ⟨V1, V2, V3, V4, V5⟩, hsub, -, -, -, -, -, -, -⟩ :=
        make_room_spec st (calc_model_size_by_data model) ⟨W1, W2, W3, W4, W5⟩
      have hpair : make_room st (calc_model_size_by_data model) =
          ((make_room st (calc_model_size_by_data model)).1, .ok ()) := by
        rw [← h1]
      have hput : put st key model sub =
          ({ (make_room st (calc_model_size_by_data model)).1 with cachedModels := dictSet (make_room st (calc_model_size_by_data model)).1.cachedModels (make_cache_key key sub) { key := make_cache_key key sub, model := model, device := (make_room st (calc_model_size_by_data model)).1.storageDevice, state_dict := if model.isNnModule then some () else none, size := calc_model_size_by_data model, loaded := false, locks := 0 }, cacheStack := (make_room st (calc_model_size_by_data model)).1.cacheStack ++ [make_cache_key key sub] }, .ok ()) := by
        unfold put
        simp only [habs, Option.isSome_none, Bool.false_eq_true, if_false]
        rw [hpair]
      have habs2 : dictGet
          (make_room st (calc_model_size_by_data model)).1.cachedModels
          (make_cache_key key sub) = none := by
        cases hopt : dictGet
            (make_room st (calc_model_size_by_data model)).1.cachedModels
            (make_cache_key key sub)
        · rfl
        · rename_i r
          have hmem := hsub _ (dictGet_eq_some_mem hopt)
          have hsome := mem_dictGet W5 hmem
          rw [habs] at hsome
          cases hsome
      have hkns : make_cache_key key sub ∉
          (make_room st (calc_model_size_by_data model)).1.cacheStack := by
        intro hmem
        have hs := V2 _ hmem
        rw [habs2] at hs
        cases hs
      have hknd : make_cache_key key sub ∉
          dictKeys (make_room st (calc_model_size_by_data model)).1.cachedModels := by
        intro hmem
        have hs := dictGet_isSome_iff.mpr hmem
        rw [habs2] at hs
        cases hs
      rw [hput]
      refine ⟨?_, ?_, ?_, ?_, ?_⟩
      · show ((make_room st (calc_model_size_by_data model)).1.cacheStack ++
          [make_cache_key key sub]).Nodup
        rw [List.nodup_append]
        refine ⟨V1, List.nodup_singleton _, ?_⟩
        intro a ha hb
        rw [List.mem_singleton] at hb
        subst hb
        exact hkns ha
      · intro k hkm
        rcases List.mem_append.mp hkm with hkm | hkm
        · by_cases hke : k = make_cache_key key sub
          · subst hke
            exact absurd hkm hkns
          · show (dictGet (dictSet _ _ _) k).isSome = true
            rw [dictGet_dictSet_ne _ hke]
            exact V2 k hkm
        · rw [List.mem_singleton] at hkm
          subst hkm
          show (dictGet (dictSet _ _ _) _).isSome = true
          rw [dictGet_dictSet_self]
          rfl
      · intro p hp
        show p.1 ∈ _ ++ [make_cache_key key sub]
        rw [dictSet_absent_eq_append _ habs2] at hp
        rcases List.mem_append.mp hp with hp | hp
        · exact List.mem_append.mpr (Or.inl (V3 p hp))
        · rw [List.mem_singleton] at hp
          subst hp
          exact List.mem_append.mpr (Or.inr (List.mem_singleton.mpr rfl))
      · intro p hp
        rw [dictSet_absent_eq_append _ habs2] at hp
        rcases List.mem_append.mp hp with hp | hp
        · exact V4 p hp
        · rw [List.mem_singleton] at hp
          subst hp
          rfl
      · show (dictKeys (dictSet _ _ _)).Nodup
        rw [dictSet_absent_eq_append _ habs2]
        unfold dictKeys
        rw [List.map_append, List.nodup_append]
        refine ⟨V5, List.nodup_singleton _, ?_⟩
        intro a ha hb
        rw [List.map_singleton, List.mem_singleton] at hb
        subst hb
        exact hknd ha
  · -- get
    intro key sub sn
    cases hopt : dictGet st.cachedModels (make_cache_key key sub) with
    | none =>
      have hmiss : get st key sub sn = (bumpMisses st, .error .indexError) := by
        simp only [get, hopt]
      obtain ⟨hb1, hb2⟩ := bumpMisses_fields st
      constructor
      · rw [hmiss]
        exact ⟨by rw [hb2]; exact W1, by rw [hb1, hb2]; exact W2,
          by rw [hb1, hb2]; exact W3, by rw [hb1]; exact W4,
          by rw [hb1]; exact W5⟩
      · intro e he
        rw [hmiss] at he
        cases he
    | some entry =>
      obtain ⟨g1, g2, g3⟩ := get_hit_eq st key sub sn entry hopt
      have hkmem : make_cache_key key sub ∈ st.cacheStack :=
        W3 _ (dictGet_eq_some_mem hopt)
      constructor
      · refine ⟨?_, ?_, ?_, ?_, ?_⟩
        · rw [g2, List.nodup_append]
          refine ⟨W1.erase _, List.nodup_singleton _, ?_⟩
          intro a ha hb
          rw [List.mem_singleton] at hb
          subst hb
          exact ((List.Nodup.mem_erase_iff W1).mp ha).1 rfl
        · intro k hkm
          rw [g1]
          rw [g2] at hkm
          rcases List.mem_append.mp hkm with hkm | hkm
          · exact W2 k (List.mem_of_mem_erase hkm)
          · rw [List.mem_singleton] at hkm
            subst hkm
            rw [hopt]
            rfl
        · intro p hp
          rw [g2]
          rw [g1] at hp
          by_cases hke : p.1 = make_cache_key key sub
          · exact List.mem_append.mpr (Or.inr (by rw [List.mem_singleton]; exact hke))
          · exact List.mem_append.mpr
              (Or.inl ((List.Nodup.mem_erase_iff W1).mpr ⟨hke, W3 p hp⟩))
        · intro p hp
          rw [g1] at hp
          exact W4 p hp
        · rw [g1]
          exact W5
      · intro e he
        exact g2
  · -- make_room
    intro size
    exact (make_room_spec st size ⟨W1, W2, W3, W4, W5⟩).2.1

/-- C9 witness: the invariant, instantiated on the one-entry state for a
`put` of a fresh key, a `get` hit, and a `make_room`. -/
theorem cache_coherence_witness :
    WF (put oneEntrySt "B" (demoModel 7) none).1 ∧
    WF (get oneEntrySt "A" none none).1 ∧
    WF (make_room oneEntrySt 3).1 := by
  obtain ⟨h1, h2, h3⟩ := cache_coherence oneEntrySt (by decide)
  exact ⟨h1 "B" (demoModel 7) none, (h2 "A" none none).1, h3 3⟩

/-- One locked-skip step of the eviction loop. -/
theorem makeRoomGo_step_skip (maxS : ℚ) (need : Nat) (d : Ledger)
    (stack : List String) (pos : Nat) (cur : Int) (cleared : Nat)
    (entry : CacheRecord) (hc : (cur : ℚ) + (need : ℚ) > maxS)
    (hp : pos < stack.length)
    (hget : dictGet d (stack.get ⟨pos, hp⟩) = some entry)
    (hl : entry.locked = true) :
    makeRoomGo maxS need d stack pos cur cleared =
      makeRoomGo maxS need d stack (pos + 1) cur cleared := by
  rw [makeRoomGo.eq_def, dif_pos (⟨hc, hp⟩ : _ ∧ _)]
  simp only [hget]
  rw [if_pos hl]

/-- One eviction step of the loop. -/
theorem makeRoomGo_step_evict (maxS : ℚ) (need : Nat) (d d' : Ledger)
    (stack s' : List String) (pos : Nat) (cur : Int) (cleared : Nat)
    (entry : CacheRecord) (hc : (cur : ℚ) + (need : ℚ) > maxS)
    (hp : pos < stack.length)
    (hget : dictGet d (stack.get ⟨pos, hp⟩) = some entry)
    (hl : entry.locked = false)
    (hdel : delete_cache_entry d stack entry = (d', s', .ok ())) :
    makeRoomGo maxS need d stack pos cur cleared =
      makeRoomGo maxS need d' s' pos (cur - (entry.size : Int)) (cleared + 1) := by
  rw [makeRoomGo.eq_def, dif_pos (⟨hc, hp⟩ : _ ∧ _)]
  simp only [hget]
  rw [if_neg (by rw [hl]; exact Bool.false_ne_true)]
  rw [hdel]

/-- Loop exit: the budget is met or the stack is exhausted. -/
theorem makeRoomGo_stop (maxS : ℚ) (need : Nat) (d : Ledger)
    (stack : List String) (pos : Nat) (cur : Int) (cleared : Nat)
    (h : ¬(((cur : ℚ) + (need : ℚ) > maxS) ∧ pos < stack.length)) :
    makeRoomGo maxS need d stack pos cur cleared =
      (d, stack, cleared, .ok ()) := by
  rw [makeRoomGo.eq_def, dif_neg h]

/-- C6 counterexample: `make_room` does *not* restrict its victims to
bulk-resident entries.  In the zero-budget state whose only entry is
unpinned but resident on the execution device (`cuda`, not the bulk
`cpu` pool), `make_room 1` still evicts it: the ledger and stack end
empty. -/
theorem make_room_evicts_execution_resident :
    execRec.locked = false ∧
    execRec.device.dtype = execResSt.executionDevice.dtype ∧
    execRec.device.dtype ≠ execResSt.storageDevice.dtype ∧
    dictGet execResSt.cachedModels "A" = some execRec ∧
    (make_room execResSt 1).2 = .ok () ∧
    (make_room execResSt 1).1.cachedModels = [] ∧
    (make_room execResSt 1).1.cacheStack = [] := by
  have hdel : delete_cache_entry execResSt.cachedModels execResSt.cacheStack
      execRec = ([], [], .ok ()) := by rfl
  have hstep : makeRoomGo (execResSt.maxCacheSize * (GIG : ℚ)) 1
      execResSt.cachedModels execResSt.cacheStack 0 (cache_size execResSt : Int) 0 =
      makeRoomGo (execResSt.maxCacheSize * (GIG : ℚ)) 1 [] [] 0
        ((cache_size execResSt : Int) - (execRec.size : Int)) 1 := by
    refine makeRoomGo_step_evict _ _ _ _ _ _ _ _ _ _ ?_ (by decide) (by decide)
      (by decide) hdel
    show ((5 : Int) : ℚ) + (1 : ℚ) > (0 : ℚ) * (GIG : ℚ)
    norm_num
  have hstop : makeRoomGo (execResSt.maxCacheSize * (GIG : ℚ)) 1 [] [] 0
      ((cache_size execResSt : Int) - (execRec.size : Int)) 1 =
      ([], [], 1, .ok ()) := by
    refine makeRoomGo_stop _ _ _ _ _ _ _ ?_
    intro hcon
    exact absurd hcon.2 (by norm_num)
  have hmr : make_room execResSt 1 =
      (setCleared { execResSt with cachedModels := [], cacheStack := [] } 1,
       .ok ()) := by
    unfold make_room
    simp only [hstep, hstop]
    norm_num
  refine ⟨by decide, by decide, by decide, by decide, ?_, ?_, ?_⟩
  · rw [hmr]
  · rw [hmr]
    decide
  · rw [hmr]
    decide

/-- C6 (amended): LRU victim order — `make_room` selects victims from the
recency stack head-first among *unpinned entries regardless of resident
pool*.  For entries touched in order A, B, C, A (stack `[B, C, A]`, all
unpinned), an eviction that needs to remove one entry removes B (the
least-recently-used) and leaves C and A untouched; and a successful `get`
refreshes its key by moving it to the recency-stack tail. -/
theorem make_room_lru_order (st : CacheState) (kB kC kA : String)
    (rB rC rA : CacheRecord) (size : Nat) (hwf : WF st)
    (hstack : st.cacheStack = [kB, kC, kA])
    (hB : dictGet st.cachedModels kB = some rB)
    (hC : dictGet st.cachedModels kC = some rC)
    (hA : dictGet st.cachedModels kA = some rA)
    (hlB : rB.locked = false) (_hlC : rC.locked = false)
    (_hlA : rA.locked = false)
    (hover : (cache_size st : ℚ) + (size : ℚ) >
      st.maxCacheSize * (GIG : ℚ))
    (hfit : (cache_size st : ℚ) - (rB.size : ℚ) + (size : ℚ) ≤
      st.maxCacheSize * (GIG : ℚ)) :
    (make_room st size).2 = .ok () ∧
    (make_room st size).1.cachedModels = dictErase st.cachedModels kB ∧
    (make_room st size).1.cacheStack = [kC, kA] ∧
    dictGet (make_room st size).1.cachedModels kB = none ∧
    dictGet (make_room st size).1.cachedModels kC = some rC ∧
    dictGet (make_room st size).1.cachedModels kA = some rA ∧
    (∀ key sub sn e, (get st key sub sn).2 = .ok e →
      (get st key sub sn).1.cacheStack =
        st.cacheStack.erase (make_cache_key key sub) ++
          [make_cache_key key sub]) := by
  obtain ⟨W1, W2, W3, W4, W5⟩ := hwf
  have hkeyB : rB.key = kB := W4 _ (dictGet_eq_some_mem hB)
  have hp : 0 < st.cacheStack.length := by
    rw [hstack]
    norm_num
  have hget0 : dictGet st.cachedModels (st.cacheStack.get ⟨0, hp⟩) = some rB := by
    have hg : st.cacheStack.get ⟨0, hp⟩ = kB := by
      simp [hstack]
    rw [hg, hB]
  have hmemB : rB.key ∈ st.cacheStack := by
    rw [hkeyB, hstack]
    simp
  have hsomeB : (dictGet st.cachedModels rB.key).isSome = true := by
    rw [hkeyB, hB]
    rfl
  have herase : st.cacheStack.erase rB.key = [kC, kA] := by
    rw [hkeyB, hstack, List.erase_cons_head]
  have hdel : delete_cache_entry st.cachedModels st.cacheStack rB =
      (dictErase st.cachedModels rB.key, [kC, kA], .ok ()) := by
    unfold delete_cache_entry
    simp only [hmemB, hsomeB, if_true, herase]
  have hstep := makeRoomGo_step_evict (st.maxCacheSize * (GIG : ℚ)) size
    st.cachedModels (dictErase st.cachedModels rB.key) st.cacheStack
    [kC, kA] 0 (cache_size st : Int) 0 rB (by exact_mod_cast hover) hp
    hget0 hlB hdel
  have hstop : makeRoomGo (st.maxCacheSize * (GIG : ℚ)) size
      (dictErase st.cachedModels rB.key) [kC, kA] 0
      ((cache_size st : Int) - (rB.size : Int)) 1 =
      (dictErase st.cachedModels rB.key, [kC, kA], 1, .ok ()) := by
    apply makeRoomGo_stop
    intro hcon
    have hcon1 := hcon.1
    push_cast at hcon1
    linarith [hfit]
  have hmr : make_room st size =
      (setCleared { st with cachedModels := dictErase st.cachedModels rB.key, cacheStack := [kC, kA] } 1, .ok ()) := by
    unfold make_room
    simp only [hstep, hstop]
    norm_num
  have hfields := setCleared_fields
    { st with cachedModels := dictErase st.cachedModels rB.key, cacheStack := [kC, kA] } 1
  have hnd : ([kB, kC, kA] : List String).Nodup := hstack ▸ W1
  have hCB : kC ≠ kB := by
    intro h
    rw [h] at hnd
    simp at hnd
  have hAB : kA ≠ kB := by
    intro h
    rw [h] at hnd
    simp at hnd
  refine ⟨by rw [hmr], ?_, ?_, ?_, ?_, ?_, ?_⟩
  · rw [hmr, hfields.1, hkeyB]
  · rw [hmr]
    exact hfields.2.1
  · rw [hmr, hfields.1, hkeyB]
    exact dictGet_dictErase_self W5
  · rw [hmr, hfields.1, hkeyB, dictGet_dictErase_ne hCB]
    exact hC
  · rw [hmr, hfields.1, hkeyB, dictGet_dictErase_ne hAB]
    exact hA
  · intro key sub sn e he
    cases hopt : dictGet st.cachedModels (make_cache_key key sub) with
    | none =>
      simp only [get, hopt] at he
      cases he
    | some entry =>
      exact (get_hit_eq st key sub sn entry hopt).2.1

/-- C6 (amended) witness: on the 6/2/2-byte state touched in order
A, B, C, A under a 10-byte ceiling, `make_room 4` evicts exactly B. -/
theorem make_room_lru_order_witness :
    (make_room lruSt 4).2 = .ok () ∧
    dictGet (make_room lruSt 4).1.cachedModels "B" = none ∧
    dictGet (make_room lruSt 4).1.cachedModels "C" =
      some (demoRec "C" 2 cpuDev 0 false) ∧
    dictGet (make_room lruSt 4).1.cachedModels "A" =
      some (demoRec "A" 2 cpuDev 0 false) ∧
    (make_room lruSt 4).1.cacheStack = ["C", "A"] := by
  obtain ⟨h1, -, h3, h4, h5, h6, -⟩ := make_room_lru_order lruSt "B" "C" "A"
    (demoRec "B" 6 cpuDev 0 false) (demoRec "C" 2 cpuDev 0 false)
    (demoRec "A" 2 cpuDev 0 false) 4 (by decide) (by decide) (by decide)
    (by decide) (by decide) (by decide) (by decide) (by decide)
    (by
      norm_num [show cache_size lruSt = 10 from rfl,
        show lruSt.maxCacheSize = (10 : ℚ) / (GIG : ℚ) from rfl, GIG])
    (by
      norm_num [show cache_size lruSt = 10 from rfl,
        show (demoRec "B" 6 cpuDev 0 false).size = 6 from rfl,
        show lruSt.maxCacheSize = (10 : ℚ) / (GIG : ℚ) from rfl, GIG])
  exact ⟨h1, h4, h5, h6, h3⟩

/-- Two successive mutations of the record under `k` compose. -/
theorem dictModify_comp (d : Ledger) (k : String)
    (f g : CacheRecord → CacheRecord) :
    dictModify (dictModify d k f) k g = dictModify d k (fun r => g (f r)) := by
  induction d with
  | nil => rfl
  | cons p rest ih =>
    obtain ⟨k₀, v⟩ := p
    rw [dictModify_cons]
    split
    · rename_i heq
      rw [dictModify_cons, if_pos heq, dictModify_cons, if_pos heq]
    · rename_i hne
      rw [dictModify_cons, if_neg hne, dictModify_cons, if_neg hne, ih]

/-- Mutating with the identity changes nothing. -/
theorem dictModify_id (d : Ledger) (k : String) :
    dictModify d k (fun r => r) = d := by
  induction d with
  | nil => rfl
  | cons p rest ih =>
    obtain ⟨k₀, v⟩ := p
    rw [dictModify_cons]
    split
    · rfl
    · rw [ih]

/-- A failure-free move to the storage device, in one equation: the
entry record is updated in place (device changed only when the types
differ and the handle is movable). -/
theorem move_to_storage_nofail (st1 : CacheState) (e : CacheRecord) :
    move_model_to_device st1 e st1.storageDevice false =
      ({ st1 with cachedModels := dictModify st1.cachedModels e.key (fun r => if e.device.dtype = st1.storageDevice.dtype ∨ e.model.hasTo = false then r else { r with device := st1.storageDevice }) }, .ok ()) := by
  by_cases hdt : e.device.dtype = st1.storageDevice.dtype
  · have hfun : (fun (r : CacheRecord) => if e.device.dtype = st1.storageDevice.dtype ∨ e.model.hasTo = false then r else { r with device := st1.storageDevice }) = fun r => r := by
      funext r
      rw [if_pos (Or.inl hdt)]
    rw [hfun, dictModify_id]
    unfold move_model_to_device
    rw [if_pos hdt]
  · by_cases hto : e.model.hasTo
    · have hfun : (fun (r : CacheRecord) => if e.device.dtype = st1.storageDevice.dtype ∨ e.model.hasTo = false then r else { r with device := st1.storageDevice }) = fun r => { r with device := st1.storageDevice } := by
        funext r
        rw [if_neg]
        rintro (h | h)
        · exact hdt h
        · rw [hto] at h
          cases h
      rw [hfun]
      unfold move_model_to_device
      rw [if_neg hdt, if_neg (not_not_intro hto), if_neg Bool.false_ne_true]
    · have hto' : e.model.hasTo = false := by
        cases hopt : e.model.hasTo
        · rfl
        · rw [hopt] at hto
          exact absurd rfl hto
      have hfun : (fun (r : CacheRecord) => if e.device.dtype = st1.storageDevice.dtype ∨ e.model.hasTo = false then r else { r with device := st1.storageDevice }) = fun r => r := by
        funext r
        rw [if_pos (Or.inr hto')]
      rw [hfun, dictModify_id]
      unfold move_model_to_device
      rw [if_neg hdt, if_pos hto]

/-- The offload loop stops as soon as the current VRAM reading satisfies
the budget: nothing further is visited or changed. -/
theorem offloadGo_stop (reserved : ℚ) (szReq : Nat) (memAlloc : Nat → Nat)
    (failOn : String → Bool) (l : Ledger) (st0 : CacheState) (t : Nat)
    (h : ((memAlloc t + szReq : Nat) : ℚ) ≤ reserved) :
    offloadGo reserved szReq memAlloc failOn l st0 t = (st0, .ok ()) := by
  cases l with
  | nil => rfl
  | cons p rest =>
    obtain ⟨k, e⟩ := p
    simp only [offloadGo]
    rw [if_pos h]

/-- Walking a snapshot of distinct, accurately-cached entries with no
transfer failures: the loop succeeds, touches neither the stack nor the
configuration, leaves keys outside the snapshot alone, and maps each
snapshot entry either to itself or — only when it was loaded and
unpinned — to its offloaded form. -/
theorem offloadGo_spec (reserved : ℚ) (szReq : Nat) (memAlloc : Nat → Nat) :
    ∀ (l : Ledger) (st1 : CacheState) (t : Nat),
    (dictKeys l).Nodup →
    (∀ p ∈ l, dictGet st1.cachedModels p.1 = some p.2) →
    (∀ p ∈ l, p.2.key = p.1) →
    (offloadGo reserved szReq memAlloc (fun _ => false) l st1 t).2 = .ok () ∧
    (offloadGo reserved szReq memAlloc (fun _ => false) l st1 t).1.storageDevice =
      st1.storageDevice ∧
    (offloadGo reserved szReq memAlloc (fun _ => false) l st1 t).1.cacheStack =
      st1.cacheStack ∧
    (∀ k, (∀ p ∈ l, p.1 ≠ k) →
      dictGet (offloadGo reserved szReq memAlloc (fun _ => false) l st1 t).1.cachedModels k =
        dictGet st1.cachedModels k) ∧
    (∀ p ∈ l,
      dictGet (offloadGo reserved szReq memAlloc (fun _ => false) l st1 t).1.cachedModels p.1 =
        some p.2 ∨
      (p.2.loaded = true ∧ p.2.locked = false ∧
       dictGet (offloadGo reserved szReq memAlloc (fun _ => false) l st1 t).1.cachedModels p.1 =
         some (offloadedRecord st1.storageDevice p.2))) := by
  intro l
  induction l with
  | nil =>
    intro st1 t _ _ _
    exact ⟨rfl, rfl, rfl, fun k _ => rfl, fun p hp => absurd hp (List.not_mem_nil p)⟩
  | cons q rest ih =>
    obtain ⟨k0, e⟩ := q
    intro st1 t hnd hacc hkeys
    have hk0e : dictGet st1.cachedModels k0 = some e := hacc (k0, e) (List.mem_cons_self _ _)
    have hek : e.key = k0 := hkeys (k0, e) (List.mem_cons_self _ _)
    have hk0rest : ∀ p ∈ rest, p.1 ≠ k0 := by
      intro p hp hpk
      simp only [dictKeys, List.map_cons, List.nodup_cons] at hnd
      exact hnd.1 (hpk ▸ List.mem_map_of_mem Prod.fst hp)
    have hndrest : (dictKeys rest).Nodup := by
      simp only [dictKeys, List.map_cons, List.nodup_cons] at hnd
      exact hnd.2
    by_cases hbud : ((memAlloc t + szReq : Nat) : ℚ) ≤ reserved
    · have heq : offloadGo reserved szReq memAlloc (fun _ => false) ((k0, e) :: rest) st1 t = (st1, .ok ()) := by
        simp only [offloadGo]
        rw [if_pos hbud]
      rw [heq]
      exact ⟨rfl, rfl, rfl, fun k _ => rfl, fun p hp => Or.inl (hacc p hp)⟩
    · by_cases hload : e.loaded = true
      · by_cases hlock : e.locked = true
        · have heq : offloadGo reserved szReq memAlloc (fun _ => false) ((k0, e) :: rest) st1 t = offloadGo reserved szReq memAlloc (fun _ => false) rest st1 t := by
            simp only [offloadGo]
            rw [if_neg hbud, if_neg (not_not_intro hload), if_neg (not_not_intro hlock)]
          obtain ⟨i1, i2, i3, i4, i5⟩ := ih st1 t hndrest (fun p hp => hacc p (List.mem_cons_of_mem _ hp)) (fun p hp => hkeys p (List.mem_cons_of_mem _ hp))
          rw [heq]
          refine ⟨i1, i2, i3, ?_, ?_⟩
          · intro k hk
            exact i4 k (fun p hp => hk p (List.mem_cons_of_mem _ hp))
          · intro p hp
            rcases List.mem_cons.mp hp with hp | hp
            · subst hp
              left
              rw [i4 k0 hk0rest]
              exact hk0e
            · exact i5 p hp
        · have hlock' : e.locked = false := by
            cases hopt : e.locked
            · rfl
            · rw [hopt] at hlock
              exact absurd rfl hlock
          have hmove := move_to_storage_nofail st1 e
          have heq : offloadGo reserved szReq memAlloc (fun _ => false) ((k0, e) :: rest) st1 t =
              offloadGo reserved szReq memAlloc (fun _ => false) rest
                { st1 with cachedModels := dictModify st1.cachedModels e.key (fun r => { (if e.device.dtype = st1.storageDevice.dtype ∨ e.model.hasTo = false then r else { r with device := st1.storageDevice }) with loaded := false }) } (t + 1) := by
            simp only [offloadGo]
            rw [if_neg hbud, if_neg (not_not_intro hload), if_pos (by rw [hlock']; exact Bool.false_ne_true)]
            rw [hmove]
            simp only [dictModify_comp]
          set g : CacheRecord → CacheRecord := fun r => { (if e.device.dtype = st1.storageDevice.dtype ∨ e.model.hasTo = false then r else { r with device := st1.storageDevice }) with loaded := false } with hg
          set st2 : CacheState := { st1 with cachedModels := dictModify st1.cachedModels e.key g } with hst2
          have hge : g e = offloadedRecord st1.storageDevice e := by
            simp only [hg]
            unfold offloadedRecord
            by_cases hc : e.device.dtype = st1.storageDevice.dtype ∨ e.model.hasTo = false
            · rw [if_pos hc, if_pos hc]
            · rw [if_neg hc, if_neg hc]
          have hacc2 : ∀ p ∈ rest, dictGet st2.cachedModels p.1 = some p.2 := by
            intro p hp
            rw [hst2]
            show dictGet (dictModify st1.cachedModels e.key g) p.1 = some p.2
            rw [hek, dictGet_dictModify_ne _ (hk0rest p hp)]
            exact hacc p (List.mem_cons_of_mem _ hp)
          obtain ⟨i1, i2, i3, i4, i5⟩ := ih st2 (t + 1) hndrest hacc2 (fun p hp => hkeys p (List.mem_cons_of_mem _ hp))
          rw [heq]
          have hstor2 : st2.storageDevice = st1.storageDevice := rfl
          refine ⟨i1, by rw [i2], by rw [i3], ?_, ?_⟩
          · intro k hk
            rw [i4 k (fun p hp => hk p (List.mem_cons_of_mem _ hp))]
            show dictGet (dictModify st1.cachedModels e.key g) k = dictGet st1.cachedModels k
            rw [hek]
            exact dictGet_dictModify_ne _ (Ne.symm (hk (k0, e) (List.mem_cons_self _ _)))
          · intro p hp
            rcases List.mem_cons.mp hp with hp | hp
            · subst hp
              right
              refine ⟨hload, hlock', ?_⟩
              rw [i4 k0 hk0rest]
              show dictGet (dictModify st1.cachedModels e.key g) k0 = _
              rw [hek, dictGet_dictModify_self, hk0e, Option.map_some', hge]
            · rcases i5 p hp with h5 | h5
              · exact Or.inl h5
              · exact Or.inr ⟨h5.1, h5.2.1, by rw [h5.2.2, hstor2]⟩
      · have heq : offloadGo reserved szReq memAlloc (fun _ => false) ((k0, e) :: rest) st1 t = offloadGo reserved szReq memAlloc (fun _ => false) rest st1 t := by
          simp only [offloadGo]
          rw [if_neg hbud, if_pos hload]
        obtain ⟨i1, i2, i3, i4, i5⟩ := ih st1 t hndrest (fun p hp => hacc p (List.mem_cons_of_mem _ hp)) (fun p hp => hkeys p (List.mem_cons_of_mem _ hp))
        rw [heq]
        refine ⟨i1, i2, i3, ?_, ?_⟩
        · intro k hk
          exact i4 k (fun p hp => hk p (List.mem_cons_of_mem _ hp))
        · intro p hp
          rcases List.mem_cons.mp hp with hp | hp
          · subst hp
            left
            rw [i4 k0 hk0rest]
            exact hk0e
          · exact i5 p hp

/-- C8: `offload_unlocked_models` — with no transfer failures on a
well-formed state: it returns normally; it visits the ledger snapshot in
ascending size order (smallest-first, stable); pinned entries are never
moved (their records are untouched); every entry is either left exactly
as it was or — only when it was loaded (execution-resident) and
unpinned — replaced by its offloaded form, which is unloaded and, for
movable handles, resident on the bulk (storage) device; and the loop
stops as soon as a VRAM reading satisfies
`memory_allocated + size_required <= max_vram_cache_size * GIG`, touching
nothing further.  The recency stack is never modified.  (The readings of
`torch.cuda.memory_allocated()` are an external oracle `memAlloc`.) -/
theorem offload_unlocked_spec (st : CacheState) (sizeRequired : Nat)
    (memAlloc : Nat → Nat) (hwf : WF st) :
    (offload_unlocked_models st sizeRequired memAlloc (fun _ => false)).2 =
      .ok () ∧
    List.Pairwise (fun a b => a.2.size ≤ b.2.size)
      (sortBySize st.cachedModels) ∧
    (∀ k r, dictGet st.cachedModels k = some r → r.locked = true →
      dictGet (offload_unlocked_models st sizeRequired memAlloc
        (fun _ => false)).1.cachedModels k = some r) ∧
    (∀ k r, dictGet st.cachedModels k = some r →
      dictGet (offload_unlocked_models st sizeRequired memAlloc
        (fun _ => false)).1.cachedModels k = some r ∨
      (r.loaded = true ∧ r.locked = false ∧
       dictGet (offload_unlocked_models st sizeRequired memAlloc
         (fun _ => false)).1.cachedModels k =
         some (offloadedRecord st.storageDevice r))) ∧
    (∀ e : CacheRecord, (offloadedRecord st.storageDevice e).loaded = false ∧
      (e.model.hasTo = true →
        (offloadedRecord st.storageDevice e).device.dtype =
          st.storageDevice.dtype)) ∧
    (∀ (l : Ledger) (st0 : CacheState) (t : Nat),
      ((memAlloc t + sizeRequired : Nat) : ℚ) ≤
        st.maxVramCacheSize * (GIG : ℚ) →
      offloadGo (st.maxVramCacheSize * (GIG : ℚ)) sizeRequired memAlloc
        (fun _ => false) l st0 t = (st0, .ok ())) ∧
    (offload_unlocked_models st sizeRequired memAlloc
      (fun _ => false)).1.cacheStack = st.cacheStack := by
  obtain ⟨W1, W2, W3, W4, W5⟩ := hwf
  have hperm := List.mergeSort_perm st.cachedModels
    (fun a b => decide (a.2.size ≤ b.2.size))
  have hmemiff : ∀ p : String × CacheRecord,
      p ∈ sortBySize st.cachedModels ↔ p ∈ st.cachedModels := by
    intro p
    exact hperm.mem_iff
  have hndk : (dictKeys (sortBySize st.cachedModels)).Nodup := by
    unfold dictKeys
    exact ((hperm.map Prod.fst).nodup_iff).mpr W5
  have hacc : ∀ p ∈ sortBySize st.cachedModels,
      dictGet st.cachedModels p.1 = some p.2 := by
    intro p hp
    obtain ⟨k, r⟩ := p
    exact mem_dictGet W5 ((hmemiff _).mp hp)
  have hkeys : ∀ p ∈ sortBySize st.cachedModels, p.2.key = p.1 :=
    fun p hp => W4 p ((hmemiff _).mp hp)
  obtain ⟨o1, o2, o3, o4, o5⟩ := offloadGo_spec
    (st.maxVramCacheSize * (GIG : ℚ)) sizeRequired memAlloc
    (sortBySize st.cachedModels) st 0 hndk hacc hkeys
  have hoffl : offload_unlocked_models st sizeRequired memAlloc
      (fun _ => false) = offloadGo (st.maxVramCacheSize * (GIG : ℚ))
        sizeRequired memAlloc (fun _ => false)
        (sortBySize st.cachedModels) st 0 := rfl
  refine ⟨by rw [hoffl]; exact o1, ?_, ?_, ?_, ?_, ?_, by rw [hoffl]; exact o3⟩
  · have htrans : ∀ a b c : String × CacheRecord,
        decide (a.2.size ≤ b.2.size) = true →
        decide (b.2.size ≤ c.2.size) = true →
        decide (a.2.size ≤ c.2.size) = true := by
      intro a b c hab hbc
      rw [decide_eq_true_eq] at *
      omega
    have htotal : ∀ a b : String × CacheRecord,
        (decide (a.2.size ≤ b.2.size) || decide (b.2.size ≤ a.2.size)) = true := by
      intro a b
      rw [Bool.or_eq_true, decide_eq_true_eq, decide_eq_true_eq]
      omega
    have hs := @List.sorted_mergeSort (String × CacheRecord)
      (fun a b => decide (a.2.size ≤ b.2.size)) htrans htotal st.cachedModels
    exact hs.imp (fun h => of_decide_eq_true h)
  · intro k r hk hl
    rcases o5 (k, r) ((hmemiff _).mpr (dictGet_eq_some_mem hk)) with h | h
    · rw [hoffl]
      exact h
    · rw [h.2.1] at hl
      cases hl
  · intro k r hk
    rcases o5 (k, r) ((hmemiff _).mpr (dictGet_eq_some_mem hk)) with h | h
    · left
      rw [hoffl]
      exact h
    · right
      rw [hoffl]
      exact h
  · intro e
    refine ⟨rfl, ?_⟩
    intro hto
    unfold offloadedRecord
    by_cases hc : e.device.dtype = st.storageDevice.dtype ∨
        e.model.hasTo = false
    · rcases hc with hc' | hc'
      · rw [if_pos (Or.inl hc')]
        exact hc'
      · rw [hc'] at hto
        cases hto
    · rw [if_neg hc]
  · intro l st0 t h
    exact offloadGo_stop _ _ _ _ l st0 t h

/-- C8 witness: the specification instantiated on the two-entry
execution-resident state with a constant VRAM reading of 5 bytes against
a zero VRAM budget. -/
theorem offload_unlocked_spec_witness :
    (offload_unlocked_models vramSt 0 (fun _ => 5) (fun _ => false)).2 =
      .ok () ∧
    List.Pairwise (fun a b => a.2.size ≤ b.2.size)
      (sortBySize vramSt.cachedModels) ∧
    (offload_unlocked_models vramSt 0 (fun _ => 5)
      (fun _ => false)).1.cacheStack = vramSt.cacheStack := by
  obtain ⟨h1, h2, -, -, -, -, h7⟩ :=
    offload_unlocked_spec vramSt 0 (fun _ => 5) (by decide)
  exact ⟨h1, h2, h7⟩

end ModelCacheSpec
